import Mathlib

/-!
Shallow embedding of the Linux IPI multiplexer (`kernel/irq/ipi-mux.c`
style driver): several virtual IPIs multiplexed over a single hardware
IPI.  Per-CPU pending bitmasks are modelled as a function from CPU index
to a natural-number bitmask; the observable actions of the send and
drain paths (memory barriers, atomic bit-sets, backend calls, handler
dispatches, warnings) are recorded in an event trace in program order.
-/

namespace IpiMux

/-- One observable action of the multiplexer, in program order.
`mbBeforeAtomic`/`mbAfterAtomic` are the barriers bracketing the bit
updates in `ipi_mux_send_mask`; `fullBarrier` is the `smp_mb()` in
`ipi_mux_process`; `setBit cpu h` is `set_bit(h, per_cpu_ptr(bits,cpu))`;
`backendSend`/`backendClear` are the `ipi_mux_ops` calls; `dispatch` is a
successful `generic_handle_domain_irq`; `warnUnmapped` is the
rate-limited warning on a failed dispatch. -/
inductive Event : Type
  | mbBeforeAtomic : Event
  | setBit (cpu hwirq : Nat) : Event
  | mbAfterAtomic : Event
  | backendSend (parentVirq : Nat) (mask : List Nat) : Event
  | backendClear (parentVirq : Nat) : Event
  | fullBarrier : Event
  | dispatch (cpu hwirq : Nat) : Event
  | warnUnmapped (hwirq : Nat) : Event
  deriving DecidableEq

/-- `set_bit(nr, word)`: atomically set bit `nr` of `word`. -/
def set_bit (nr w : Nat) : Nat := w ||| 2 ^ nr

/-- `xchg(word, 0)` on the per-CPU word of `cpu`: returns the old value
(the snapshot) and the updated per-CPU state with that word zeroed. -/
def xchg_zero (bits : Nat → Nat) (cpu : Nat) : Nat × (Nat → Nat) :=
  (bits cpu, fun c => if c = cpu then 0 else bits c)

/-- `ipi_mux_send_mask(d, mask)` with `d->hwirq = hwirq`: barrier, atomic
bit-set on every CPU of `mask`, barrier, then the backend send of the
parent IPI.  Returns the new per-CPU bit state and the event trace. -/
def ipi_mux_send_mask (parentVirq hwirq : Nat) (mask : List Nat)
    (bits : Nat → Nat) : (Nat → Nat) × List Event :=
  (fun cpu => if cpu ∈ mask then set_bit hwirq (bits cpu) else bits cpu,
   Event.mbBeforeAtomic ::
     (mask.map (fun cpu => Event.setBit cpu hwirq) ++
      [Event.mbAfterAtomic, Event.backendSend parentVirq mask]))

/-- `for_each_set_bit(b, &irqs, N)`: the set bit positions of `irqs`
below `N`, in ascending order. -/
def for_each_set_bit (irqs n : Nat) : List Nat :=
  (List.range n).filter (fun b => irqs.testBit b)

/-- `ipi_mux_process()` running on CPU `cpu`: optional backend clear,
full barrier, atomic exchange-to-zero of the local pending word, early
return on an empty snapshot, otherwise dispatch of every set bit (with a
rate-limited warning, not an abort, on an unmapped hwirq).  `mapped h`
says whether the domain has a mapping for hwirq `h`; `n` is
`IPI_MUX_NR_IRQS`. -/
def ipi_mux_process (parentVirq n : Nat) (hasClear : Bool)
    (mapped : Nat → Bool) (cpu : Nat) (bits : Nat → Nat) :
    (Nat → Nat) × List Event :=
  let pre := (if hasClear then [Event.backendClear parentVirq] else []) ++
    [Event.fullBarrier]
  let s := xchg_zero bits cpu
  if s.1 = 0 then (s.2, pre)
  else
    (s.2, pre ++ (for_each_set_bit s.1 n).map
      (fun h => if mapped h then Event.dispatch cpu h
                else Event.warnUnmapped h))

/-- Run one `ipi_mux_process()` on each CPU of `cpus`, in list order,
threading the per-CPU bit state and concatenating the traces. -/
def drain_on_each (parentVirq n : Nat) (hasClear : Bool)
    (mapped : Nat → Bool) (cpus : List Nat) (bits : Nat → Nat) :
    (Nat → Nat) × List Event :=
  match cpus with
  | [] => (bits, [])
  | c :: rest =>
    let r := ipi_mux_process parentVirq n hasClear mapped c bits
    let r2 := drain_on_each parentVirq n hasClear mapped rest r.1
    (r2.1, r.2 ++ r2.2)

/-- The logical lines actually dispatched in a trace, in trace order. -/
def dispatched (tr : List Event) : List Nat :=
  tr.filterMap (fun e => match e with
    | Event.dispatch _ h => some h
    | _ => none)

/-- The `struct ipi_mux_ops` backend capability: which of the two
function pointers are non-NULL. -/
structure MuxOpsCap : Type where
  has_send : Bool
  has_clear : Bool
  deriving DecidableEq

/-- The module-level globals of the driver (`ipi_mux_domain`,
`ipi_mux_parent_virq`, `ipi_mux_ops`, the chained handler and the
cpuhp hooks installed by a successful chained-mode create). -/
structure MuxGlobals : Type where
  domain : Bool
  parent_virq : Nat
  ops_bound : Bool
  chained_handler : Bool
  hooks_registered : Bool
  deriving DecidableEq

/-- Outcomes of the two fallible allocation calls inside
`ipi_mux_create`: whether `irq_domain_add_linear` succeeds, and the
return value of `__irq_domain_alloc_irqs`. -/
structure CreateEnv : Type where
  domain_add_ok : Bool
  alloc_virq : Int
  deriving DecidableEq

/-- `ipi_mux_create(parent_virq, ops)`.  Rejects a duplicate controller
or a backend without a send capability; on domain-add failure returns 0;
on virq allocation failure removes the domain again (rollback) and
returns the non-positive allocation result; on success binds the
globals and, in chained mode (`parent_virq > 0`), installs the chained
handler and the CPU-hotplug hooks. -/
def ipi_mux_create (g : MuxGlobals) (env : CreateEnv)
    (parent_virq : Nat) (muxOps : Option MuxOpsCap) : Int × MuxGlobals :=
  if g.domain || muxOps.isNone || !(muxOps.elim false (fun o => o.has_send))
  then (0, g)
  else if !env.domain_add_ok then (0, g)
  else if env.alloc_virq ≤ 0 then (env.alloc_virq, g)
  else if parent_virq > 0 then
    (env.alloc_virq, ⟨true, parent_virq, true, true, true⟩)
  else
    (env.alloc_virq,
     ⟨true, parent_virq, true, g.chained_handler, g.hooks_registered⟩)

/-- Observable actions of the CPU-hotplug callbacks. -/
inductive HookEvent : Type
  | enable_percpu (virq trigger_type : Nat) : HookEvent
  | disable_percpu (virq : Nat) : HookEvent
  deriving DecidableEq

/-- `ipi_mux_starting_cpu(cpu)`: enable the parent per-CPU IRQ with its
configured trigger type (`trigger` models `irq_get_trigger_type`). -/
def ipi_mux_starting_cpu (trigger : Nat → Nat) (parentVirq cpu : Nat) :
    Int × List HookEvent :=
  (0, [HookEvent.enable_percpu parentVirq (trigger parentVirq)])

/-- `ipi_mux_dying_cpu(cpu)`: disable the parent per-CPU IRQ. -/
def ipi_mux_dying_cpu (parentVirq cpu : Nat) : Int × List HookEvent :=
  (0, [HookEvent.disable_percpu parentVirq])

/-- Recognizer for backend-send events, used to count backend calls. -/
def isBackendSend : Event → Bool
  | Event.backendSend _ _ => true
  | _ => false

/-! ### Helper lemmas -/

lemma set_bit_testBit_self (nr w : Nat) : (set_bit nr w).testBit nr = true := by
  simp [set_bit, Nat.testBit_two_pow_self]

lemma set_bit_testBit_mono {w : Nat} (nr i : Nat) (h : w.testBit i = true) :
    (set_bit nr w).testBit i = true := by
  simp [set_bit, h]

lemma send_mask_bits_mem {mask : List Nat} {cpu : Nat}
    (p v : Nat) (bits : Nat → Nat) (h : cpu ∈ mask) :
    (ipi_mux_send_mask p v mask bits).1 cpu = set_bit v (bits cpu) := by
  simp [ipi_mux_send_mask, h]

lemma send_mask_bits_not_mem {mask : List Nat} {cpu : Nat}
    (p v : Nat) (bits : Nat → Nat) (h : cpu ∉ mask) :
    (ipi_mux_send_mask p v mask bits).1 cpu = bits cpu := by
  simp [ipi_mux_send_mask, h]

/-! ### Claim theorems -/

/-- C4: `ipi_mux_send_mask` performs, in order, a barrier (the release
side), then one atomic bit-set of bit `v` on the pending word of every
CPU of `mask` and nothing else, then a barrier (the acquire side), and
only then — last in the trace — exactly one backend send, carrying the
parent IPI and the same target mask. -/
theorem send_order_barrier_set_barrier_backend
    (p v : Nat) (mask : List Nat) (bits : Nat → Nat) :
    ∃ sets : List Event,
      (ipi_mux_send_mask p v mask bits).2 =
        Event.mbBeforeAtomic ::
          (sets ++ [Event.mbAfterAtomic, Event.backendSend p mask]) ∧
      (∀ e ∈ sets, ∃ c ∈ mask, e = Event.setBit c v) ∧
      (∀ c ∈ mask, Event.setBit c v ∈ sets) ∧
      ((ipi_mux_send_mask p v mask bits).2.countP isBackendSend = 1) := by
  refine ⟨mask.map (fun c => Event.setBit c v), rfl, ?_, ?_, ?_⟩
  · intro e he
    rcases List.mem_map.mp he with ⟨c, hc, rfl⟩
    exact ⟨c, hc, rfl⟩
  · intro c hc
    exact List.mem_map.mpr ⟨c, hc, rfl⟩
  · simp only [ipi_mux_send_mask, List.countP_cons, List.countP_append,
      List.countP_map]
    have h0 : List.countP ((fun e => isBackendSend e) ∘
        fun c => Event.setBit c v) mask = 0 := by
      apply List.countP_eq_zero.mpr
      intro c _
      simp [isBackendSend]
    simp [h0, isBackendSend, List.countP_cons]

/-- C10: sending with an empty target CPU set leaves every CPU's pending
word unchanged, records no bit-set, and still calls the backend send
exactly once, with the empty mask. -/
theorem send_empty_mask_no_bits_one_backend
    (p v : Nat) (bits : Nat → Nat) :
    (ipi_mux_send_mask p v [] bits).1 = bits ∧
    (∀ c i : Nat, Event.setBit c i ∉ (ipi_mux_send_mask p v [] bits).2) ∧
    (ipi_mux_send_mask p v [] bits).2.countP isBackendSend = 1 ∧
    Event.backendSend p [] ∈ (ipi_mux_send_mask p v [] bits).2 := by
  refine ⟨funext fun c => ?_, ?_, ?_, ?_⟩
  · simp [ipi_mux_send_mask]
  · intro c i
    simp [ipi_mux_send_mask]
  · simp [ipi_mux_send_mask, List.countP_cons, isBackendSend]
  · simp [ipi_mux_send_mask]

lemma process_bits (p n : Nat) (hasClear : Bool) (mapped : Nat → Bool)
    (cpu : Nat) (bits : Nat → Nat) :
    (ipi_mux_process p n hasClear mapped cpu bits).1 =
      fun c => if c = cpu then 0 else bits c := by
  simp only [ipi_mux_process, xchg_zero]
  split <;> rfl

/-- C3: the only clearing of a CPU's pending word is the atomic
exchange-to-zero in `ipi_mux_process`: after a drain step the draining
CPU's word is entirely zero while every other CPU's word is untouched,
and the send path never clears a set bit anywhere — so no operation ever
clears a strict non-empty subset of the set bits. -/
theorem clear_full_snapshot
    (p n : Nat) (hasClear : Bool) (mapped : Nat → Bool) (cpu c : Nat)
    (bits : Nat → Nat) (v : Nat) (mask : List Nat) (c2 i : Nat)
    (hc : c ≠ cpu) (hb : (bits c2).testBit i = true) :
    (ipi_mux_process p n hasClear mapped cpu bits).1 cpu = 0 ∧
    (ipi_mux_process p n hasClear mapped cpu bits).1 c = bits c ∧
    ((ipi_mux_send_mask p v mask bits).1 c2).testBit i = true := by
  refine ⟨?_, ?_, ?_⟩
  · rw [process_bits]; simp
  · rw [process_bits]; simp [hc]
  · by_cases hm : c2 ∈ mask
    · rw [send_mask_bits_mem p v bits hm]
      exact set_bit_testBit_mono v i hb
    · rw [send_mask_bits_not_mem p v bits hm]
      exact hb

theorem clear_full_snapshot_witness :
    (ipi_mux_process 1 8 true (fun _ => true) 0 (fun _ => 2)).1 0 = 0 ∧
    (ipi_mux_process 1 8 true (fun _ => true) 0 (fun _ => 2)).1 1 = 2 ∧
    ((ipi_mux_send_mask 1 3 [0, 1] (fun _ => 2)).1 0).testBit 1 = true :=
  clear_full_snapshot 1 8 true (fun _ => true) 0 1 (fun _ => 2) 3 [0, 1] 0 1
    (by decide) (by decide)

/-- C7: a drain on a CPU whose pending word is zero dispatches nothing,
emits no warning, and leaves the whole per-CPU bit state unchanged (in
particular that CPU's word stays empty): a spurious-invocation no-op. -/
theorem drain_empty_is_noop
    (p n : Nat) (hasClear : Bool) (mapped : Nat → Bool) (cpu : Nat)
    (bits : Nat → Nat) (h : bits cpu = 0) :
    (ipi_mux_process p n hasClear mapped cpu bits).1 = bits ∧
    (∀ c v : Nat,
      Event.dispatch c v ∉ (ipi_mux_process p n hasClear mapped cpu bits).2) ∧
    (∀ v : Nat,
      Event.warnUnmapped v ∉ (ipi_mux_process p n hasClear mapped cpu bits).2) := by
  have htr : (ipi_mux_process p n hasClear mapped cpu bits).2 =
      (if hasClear then [Event.backendClear p] else []) ++ [Event.fullBarrier] := by
    simp [ipi_mux_process, xchg_zero, h]
  refine ⟨?_, ?_, ?_⟩
  · rw [process_bits]
    funext c
    by_cases hcc : c = cpu
    · simp [hcc, h]
    · simp [hcc]
  · intro c v
    rw [htr]
    cases hasClear <;> simp
  · intro v
    rw [htr]
    cases hasClear <;> simp

theorem drain_empty_is_noop_witness :
    (ipi_mux_process 1 8 true (fun _ => true) 0 (fun _ => 0)).1 = (fun _ => 0) ∧
    (∀ c v : Nat,
      Event.dispatch c v ∉ (ipi_mux_process 1 8 true (fun _ => true) 0 (fun _ => 0)).2) ∧
    (∀ v : Nat,
      Event.warnUnmapped v ∉ (ipi_mux_process 1 8 true (fun _ => true) 0 (fun _ => 0)).2) :=
  drain_empty_is_noop 1 8 true (fun _ => true) 0 (fun _ => 0) rfl

/-- C6: during a drain, every set bit of the snapshot is acted on: a
mapped bit is dispatched to its line's handler and an unmapped bit
produces the rate-limited warning — and this holds for every set bit
whatever the mapping status of the other set bits, so one unmapped bit
never aborts the dispatch of the rest of the snapshot. -/
theorem drain_handles_every_set_bit
    (p n : Nat) (hasClear : Bool) (mapped : Nat → Bool) (cpu : Nat)
    (bits : Nat → Nat) (v : Nat) (hv : v < n)
    (hset : (bits cpu).testBit v = true) :
    (if mapped v then Event.dispatch cpu v else Event.warnUnmapped v) ∈
      (ipi_mux_process p n hasClear mapped cpu bits).2 := by
  have hne : ¬ bits cpu = 0 := by
    intro h0
    rw [h0] at hset
    simp at hset
  have hmem : v ∈ for_each_set_bit (bits cpu) n := by
    simp [for_each_set_bit, List.mem_filter, List.mem_range, hv, hset]
  simp only [ipi_mux_process, xchg_zero, hne, if_false]
  exact List.mem_append_right _ (List.mem_map.mpr ⟨v, hmem, rfl⟩)

theorem drain_handles_every_set_bit_witness :
    ((if (fun h => decide (h ≠ 2)) 3 then Event.dispatch 0 3
      else Event.warnUnmapped 3) ∈
      (ipi_mux_process 1 8 false (fun h => decide (h ≠ 2)) 0 (fun _ => 12)).2) ∧
    ((if (fun h => decide (h ≠ 2)) 2 then Event.dispatch 0 2
      else Event.warnUnmapped 2) ∈
      (ipi_mux_process 1 8 false (fun h => decide (h ≠ 2)) 0 (fun _ => 12)).2) :=
  ⟨drain_handles_every_set_bit 1 8 false (fun h => decide (h ≠ 2)) 0
      (fun _ => 12) 3 (by decide) (by decide),
   drain_handles_every_set_bit 1 8 false (fun h => decide (h ≠ 2)) 0
      (fun _ => 12) 2 (by decide) (by decide)⟩

/-- C2: a send racing an in-progress drain on a target CPU `B` is never
lost.  The send touches `B`'s pending word with one atomic `set_bit` and
the drain touches it with one atomic exchange-to-zero, so every
interleaving orders the two: if the bit-set comes first the bit is in
the current drain's snapshot (first conjunct); if the exchange comes
first the bit survives it and is in the immediately following drain's
snapshot (second conjunct).  In neither order does it vanish. -/
theorem racing_send_bit_never_lost
    (p v : Nat) (mask : List Nat) (bits : Nat → Nat) (B : Nat)
    (hB : B ∈ mask) :
    (xchg_zero (ipi_mux_send_mask p v mask bits).1 B).1.testBit v = true ∧
    (xchg_zero
      (ipi_mux_send_mask p v mask (xchg_zero bits B).2).1 B).1.testBit v
      = true := by
  constructor
  · show ((ipi_mux_send_mask p v mask bits).1 B).testBit v = true
    rw [send_mask_bits_mem p v bits hB]
    exact set_bit_testBit_self v (bits B)
  · show ((ipi_mux_send_mask p v mask (xchg_zero bits B).2).1 B).testBit v
      = true
    rw [send_mask_bits_mem p v _ hB]
    exact set_bit_testBit_self v _

theorem racing_send_bit_never_lost_witness :
    (xchg_zero (ipi_mux_send_mask 1 3 [0] (fun _ => 0)).1 0).1.testBit 3
      = true ∧
    (xchg_zero
      (ipi_mux_send_mask 1 3 [0] (xchg_zero (fun _ => 0) 0).2).1 0).1.testBit 3
      = true :=
  racing_send_bit_never_lost 1 3 [0] (fun _ => 0) 0 (by decide)

lemma dispatched_map_bit_action (mapped : Nat → Bool) (cpu : Nat)
    (l : List Nat) :
    dispatched (l.map (fun h => if mapped h then Event.dispatch cpu h
      else Event.warnUnmapped h)) = l.filter mapped := by
  induction l with
  | nil => rfl
  | cons a t ih =>
    by_cases h : mapped a
    · simp only [List.map_cons, dispatched, List.filterMap_cons, h, if_true,
        List.filter_cons_of_pos h]
      simpa [dispatched] using ih
    · simp only [List.map_cons, dispatched, List.filterMap_cons, h,
        if_false, Bool.false_eq_true, List.filter_cons_of_neg h]
      simpa [dispatched] using ih

lemma dispatched_pre (p : Nat) (hasClear : Bool) :
    dispatched ((if hasClear then [Event.backendClear p] else []) ++
      [Event.fullBarrier]) = [] := by
  cases hasClear <;> rfl

/-- C9: within one drain, the dispatched logical lines come out in
strictly ascending index order — the snapshot's set bits are walked from
bit 0 upward. -/
theorem drain_dispatch_order_ascending
    (p n : Nat) (hasClear : Bool) (mapped : Nat → Bool) (cpu : Nat)
    (bits : Nat → Nat) :
    List.Pairwise (· < ·)
      (dispatched (ipi_mux_process p n hasClear mapped cpu bits).2) := by
  by_cases h0 : bits cpu = 0
  · simp only [ipi_mux_process, xchg_zero, h0, if_true]
    rw [dispatched_pre]
    exact List.Pairwise.nil
  · simp only [ipi_mux_process, xchg_zero, h0, if_false]
    rw [show dispatched = List.filterMap _ from rfl, List.filterMap_append,
      ← show dispatched = List.filterMap _ from rfl]
    rw [dispatched_pre, List.nil_append, dispatched_map_bit_action]
    exact ((List.pairwise_lt_range n).filter _).filter _

/-- C5: whenever `ipi_mux_create` fails — a controller already exists,
the backend is absent or lacks the send capability, the domain add
fails, or the virq allocation fails — it returns a non-positive value
and the globals are exactly as before the call: no domain, no ops
binding, no chained handler and no hotplug hooks survive (the
partially allocated domain is removed before returning). -/
theorem create_failure_leaves_no_state
    (g : MuxGlobals) (env : CreateEnv) (parent : Nat)
    (muxOps : Option MuxOpsCap)
    (h : g.domain = true ∨ muxOps = none ∨
      muxOps.elim false (fun o => o.has_send) = false ∨
      env.domain_add_ok = false ∨ env.alloc_virq ≤ 0) :
    (ipi_mux_create g env parent muxOps).1 ≤ 0 ∧
    (ipi_mux_create g env parent muxOps).2 = g := by
  unfold ipi_mux_create
  split
  · exact ⟨le_refl 0, rfl⟩
  · split
    · exact ⟨le_refl 0, rfl⟩
    · split
      · next hle => exact ⟨hle, rfl⟩
      · next hA hB hC =>
        exfalso
        rcases h with h | h | h | h | h
        · exact hA (by simp [h])
        · exact hA (by simp [h])
        · exact hA (by simp [h])
        · exact hB (by simp [h])
        · exact hC h

theorem create_failure_leaves_no_state_witness :
    (ipi_mux_create ⟨false, 0, false, false, false⟩ ⟨true, 5⟩ 3 none).1 ≤ 0 ∧
    (ipi_mux_create ⟨false, 0, false, false, false⟩ ⟨true, 5⟩ 3 none).2 =
      ⟨false, 0, false, false, false⟩ :=
  create_failure_leaves_no_state ⟨false, 0, false, false, false⟩ ⟨true, 5⟩ 3
    none (Or.inr (Or.inl rfl))

/-- C8: starting from a state with no hooks and no chained handler,
`ipi_mux_create` ends with the CPU-hotplug hooks (and the chained
handler) registered exactly when it succeeded in chained mode — a real
(positive) parent IPI was supplied; explicit mode and every failure
leave them unregistered.  When registered, the starting hook enables
the parent per-CPU IRQ with its configured trigger type and the dying
hook disables it. -/
theorem hooks_iff_chained_mode
    (g : MuxGlobals) (env : CreateEnv) (parent : Nat)
    (muxOps : Option MuxOpsCap) (trigger : Nat → Nat) (cpu : Nat)
    (hg : g.hooks_registered = false) (hch : g.chained_handler = false) :
    ((ipi_mux_create g env parent muxOps).2.hooks_registered = true ↔
      0 < (ipi_mux_create g env parent muxOps).1 ∧ 0 < parent) ∧
    ((ipi_mux_create g env parent muxOps).2.chained_handler = true ↔
      0 < (ipi_mux_create g env parent muxOps).1 ∧ 0 < parent) ∧
    ipi_mux_starting_cpu trigger parent cpu =
      (0, [HookEvent.enable_percpu parent (trigger parent)]) ∧
    ipi_mux_dying_cpu parent cpu = (0, [HookEvent.disable_percpu parent]) := by
  refine ⟨?_, ?_, rfl, rfl⟩ <;>
  · unfold ipi_mux_create
    split
    · simp [hg, hch]
    · split
      · simp [hg, hch]
      · split
        · next hle => simp [hg, hch, not_lt_of_le hle]
        · next hA hB hC =>
          split
          · next hp => simp [not_le.mp hC, hp]
          · next hp =>
            simp only [hg, hch]
            constructor
            · intro hfalse
              exact absurd hfalse (by simp)
            · intro hand
              exact absurd hand.2 hp

theorem hooks_iff_chained_mode_witness :
    ((ipi_mux_create ⟨false, 0, false, false, false⟩ ⟨true, 7⟩ 5
        (some ⟨true, true⟩)).2.hooks_registered = true ↔
      0 < (ipi_mux_create ⟨false, 0, false, false, false⟩ ⟨true, 7⟩ 5
        (some ⟨true, true⟩)).1 ∧ 0 < 5) ∧
    ((ipi_mux_create ⟨false, 0, false, false, false⟩ ⟨true, 7⟩ 5
        (some ⟨true, true⟩)).2.chained_handler = true ↔
      0 < (ipi_mux_create ⟨false, 0, false, false, false⟩ ⟨true, 7⟩ 5
        (some ⟨true, true⟩)).1 ∧ 0 < 5) ∧
    ipi_mux_starting_cpu (fun _ => 4) 5 0 =
      (0, [HookEvent.enable_percpu 5 4]) ∧
    ipi_mux_dying_cpu 5 0 = (0, [HookEvent.disable_percpu 5]) :=
  hooks_iff_chained_mode ⟨false, 0, false, false, false⟩ ⟨true, 7⟩ 5
    (some ⟨true, true⟩) (fun _ => 4) 0 rfl rfl

lemma count_dispatch_pre (p cpu v : Nat) (hasClear : Bool) :
    List.count (Event.dispatch cpu v)
      ((if hasClear then [Event.backendClear p] else []) ++
        [Event.fullBarrier]) = 0 := by
  cases hasClear <;> simp [List.count_eq_zero]

lemma bit_action_injective (mapped : Nat → Bool) (c : Nat) :
    Function.Injective (fun h => if mapped h then Event.dispatch c h
      else Event.warnUnmapped h) := by
  intro a b hab
  by_cases ha : mapped a <;> by_cases hb : mapped b <;>
    simp [ha, hb] at hab <;> exact hab

lemma count_dispatch_process (p n : Nat) (hasClear : Bool)
    (mapped : Nat → Bool) (c cpu v : Nat) (bits : Nat → Nat)
    (hm : mapped v = true) (hv : v < n) :
    List.count (Event.dispatch cpu v)
      (ipi_mux_process p n hasClear mapped c bits).2 =
      if c = cpu ∧ (bits c).testBit v = true then 1 else 0 := by
  by_cases h0 : bits c = 0
  · have hb : (bits c).testBit v = false := by simp [h0]
    simp only [ipi_mux_process, xchg_zero, h0, if_true, hb]
    rw [count_dispatch_pre]
    simp
  · simp only [ipi_mux_process, xchg_zero, h0, if_false]
    rw [List.count_append, count_dispatch_pre, Nat.zero_add]
    by_cases hc : c = cpu
    · subst hc
      by_cases hb : (bits c).testBit v = true
      · have hf : Event.dispatch c v = (fun h => if mapped h then
            Event.dispatch c h else Event.warnUnmapped h) v := by simp [hm]
        rw [hf, List.count_map_of_injective _ _ (bit_action_injective mapped c)]
        have hmemr : v ∈ List.range n := List.mem_range.mpr hv
        have : List.count v (for_each_set_bit (bits c) n) =
            List.count v (List.range n) := List.count_filter (by simpa using hb)
        rw [this, List.nodup_iff_count_eq_one.mp (List.nodup_range n) v hmemr]
        simp [hb]
      · rw [List.count_eq_zero.mpr, if_neg (by simp [hb])]
        intro hmem
        rcases List.mem_map.mp hmem with ⟨h, hhl, hfh⟩
        by_cases hmh : mapped h
        · simp only [hmh, if_true] at hfh
          cases hfh
          have hvl : v ∈ (List.range n).filter (fun b => (bits c).testBit b) :=
            hhl
          exact hb (by simpa using (List.mem_filter.mp hvl).2)
        · simp [hmh] at hfh
    · rw [List.count_eq_zero.mpr, if_neg (by simp [hc])]
      intro hmem
      rcases List.mem_map.mp hmem with ⟨h, _, hfh⟩
      by_cases hmh : mapped h
      · simp only [hmh, if_true] at hfh
        cases hfh
        exact hc rfl
      · simp [hmh] at hfh

lemma count_dispatch_drain_zero (p n : Nat) (hasClear : Bool)
    (mapped : Nat → Bool) (cpu v : Nat) (hm : mapped v = true) (hv : v < n) :
    ∀ (cpus : List Nat) (bits : Nat → Nat), (bits cpu).testBit v = false →
    List.count (Event.dispatch cpu v)
      (drain_on_each p n hasClear mapped cpus bits).2 = 0 := by
  intro cpus
  induction cpus with
  | nil => intro bits _; simp [drain_on_each]
  | cons c rest ih =>
    intro bits hb
    simp only [drain_on_each, List.count_append]
    rw [count_dispatch_process p n hasClear mapped c cpu v bits hm hv]
    have hnot : ¬(c = cpu ∧ (bits c).testBit v = true) := by
      rintro ⟨rfl, hcontra⟩
      rw [hb] at hcontra
      exact Bool.false_ne_true hcontra
    rw [if_neg hnot, Nat.zero_add]
    apply ih
    rw [process_bits]
    by_cases hcc : cpu = c
    · simp [hcc]
    · simpa [hcc] using hb

lemma count_dispatch_drain_on_each (p n : Nat) (hasClear : Bool)
    (mapped : Nat → Bool) (cpu v : Nat) (hm : mapped v = true) (hv : v < n) :
    ∀ (cpus : List Nat) (bits : Nat → Nat), (bits cpu).testBit v = true →
    List.count (Event.dispatch cpu v)
      (drain_on_each p n hasClear mapped cpus bits).2 =
      if cpu ∈ cpus then 1 else 0 := by
  intro cpus
  induction cpus with
  | nil => intro bits _; simp [drain_on_each]
  | cons c rest ih =>
    intro bits hb
    simp only [drain_on_each, List.count_append]
    rw [count_dispatch_process p n hasClear mapped c cpu v bits hm hv]
    by_cases hc : c = cpu
    · subst hc
      rw [if_pos ⟨rfl, hb⟩]
      have hzero : List.count (Event.dispatch c v)
          (drain_on_each p n hasClear mapped rest
            (ipi_mux_process p n hasClear mapped c bits).1).2 = 0 := by
        apply count_dispatch_drain_zero p n hasClear mapped c v hm hv
        rw [process_bits]
        simp
      rw [hzero]
      simp
    · rw [if_neg (fun hand => hc hand.1), Nat.zero_add]
      have hb' : ((ipi_mux_process p n hasClear mapped c bits).1 cpu).testBit v
          = true := by
        rw [process_bits]
        simpa [Ne.symm hc] using hb
      rw [ih _ hb']
      by_cases hr : cpu ∈ rest
      · simp [hr]
      · simp [hr, Ne.symm hc]

/-- C1: a `send(v, S)` followed by one drain on each CPU of `S`
dispatches logical line `v` exactly once on every CPU of `S` — the
count of dispatch events for `(cpu, v)` over all the drains is exactly
one, never zero and never two — provided `v` is a valid mapped line. -/
theorem send_then_drain_dispatches_once
    (p n v : Nat) (mask : List Nat) (bits : Nat → Nat) (hasClear : Bool)
    (mapped : Nat → Bool) (cpu : Nat)
    (hcpu : cpu ∈ mask) (hv : v < n) (hm : mapped v = true) :
    List.count (Event.dispatch cpu v)
      (drain_on_each p n hasClear mapped mask
        (ipi_mux_send_mask p v mask bits).1).2 = 1 := by
  have hb : ((ipi_mux_send_mask p v mask bits).1 cpu).testBit v = true := by
    rw [send_mask_bits_mem p v bits hcpu]
    exact set_bit_testBit_self v (bits cpu)
  rw [count_dispatch_drain_on_each p n hasClear mapped cpu v hm hv mask _ hb]
  simp [hcpu]

theorem send_then_drain_dispatches_once_witness :
    List.count (Event.dispatch 1 3)
      (drain_on_each 9 8 false (fun _ => true) [0, 1]
        (ipi_mux_send_mask 9 3 [0, 1] (fun _ => 0)).1).2 = 1 :=
  send_then_drain_dispatches_once 9 8 3 [0, 1] (fun _ => 0) false
    (fun _ => true) 1 (by decide) (by decide) rfl

end IpiMux
